import Mathlib

/-!
# Verification of the AgileRL Rainbow-DQN learning core

Shallow embedding, over exact rational arithmetic, of the learning core of
the AgileRL repository:

* `agilerl/components/replay_buffer.py` — the bounded FIFO replay memory
  (`ReplayBuffer`), built on `collections.deque(maxlen=memory_size)` and
  `random.sample`;
* `agilerl/algorithms/dqn_rainbow.py` — the `RainbowDQN` class: support
  vector construction (`__init__`), the categorical distributional Bellman
  projection and cross-entropy loss (`_dqn_loss`), loss blending (`learn`),
  Polyak averaging (`soft_update`) and action selection (`get_action`).

Tensors are modelled as lists of rationals, elementwise tensor operations as
maps, `index_add_` as a fold of single-position additions, and fallible
operations (shape mismatches, Python `ZeroDivisionError`, the
`random.sample` size check) as `Option`-returning functions.
-/

namespace AgileRL

/-! ## Support vector (`RainbowDQN.__init__`, lines 125-135 and 168-169) -/

/-- Model of `torch.clamp(x, min=lo, max=hi)`: `min(max(x, lo), hi)`. -/
def clampQ (lo hi x : ℚ) : ℚ := min hi (max lo x)

/-- Model of `torch.linspace(vMin, vMax, n)` in exact arithmetic: the `k`-th entry is
`vMin + k * (vMax - vMin) / (n - 1)`; for `n = 1` the single entry is `vMin`
(the rational division by `0` yielding `0` matches `torch.linspace`'s single
point in that case). -/
def linspaceQ (vMin vMax : ℚ) (n : ℕ) : List ℚ :=
  (List.range n).map (fun (k : ℕ) => vMin + (k : ℚ) * ((vMax - vMin) / ((n : ℚ) - 1)))

/-- The immutable support vector owned by `RainbowDQN`: the ordered atom
values together with the spacing `delta_z`. -/
structure SupportVector where
  atoms : List ℚ
  delta_z : ℚ
  deriving Repr, DecidableEq

/-- Support-vector construction, following `RainbowDQN.__init__`:
the asserts `num_atoms >= 1` and `v_max >= v_min` fail construction
(`none`), then `self.support = torch.linspace(v_min, v_max, num_atoms)` and
`self.delta_z = (v_max - v_min) / (num_atoms - 1)` are computed.  The
Python division raises `ZeroDivisionError` when `num_atoms - 1 == 0`, which
is also modelled as `none`. -/
def mkSupportVector (vMin vMax : ℚ) (numAtoms : ℤ) : Option SupportVector :=
  if numAtoms < 1 then none
  else if vMax < vMin then none
  else if numAtoms - 1 = 0 then none
  else some ⟨linspaceQ vMin vMax numAtoms.toNat, (vMax - vMin) / ((numAtoms : ℚ) - 1)⟩

/-! ## Categorical projection (`RainbowDQN._dqn_loss`, lines 361-395) -/

/-- The in-place boundary correction `L[(u > 0) * (L == u)] -= 1` applied to
`L = b.floor()` with `u = b.ceil()`. -/
def floorC (b : ℚ) : ℤ :=
  if 0 < ⌈b⌉ ∧ ⌊b⌋ = ⌈b⌉ then ⌊b⌋ - 1 else ⌊b⌋

/-- The subsequent in-place correction `u[(L < (num_atoms - 1)) * (L == u)] += 1`
applied to `u = b.ceil()`; the `L` it reads is the already-corrected one. -/
def ceilC (numAtoms : ℕ) (b : ℚ) : ℤ :=
  if floorC b < (numAtoms : ℤ) - 1 ∧ floorC b = ⌈b⌉ then ⌈b⌉ + 1 else ⌈b⌉

/-- The continuous bin index of atom `k` for a transition with reward `r`,
done flag `d` and effective discount `g`:
`t_z = clamp(r + (1 - d) * g * support[k], v_min, v_max)` followed by
`b = (t_z - v_min) / delta_z`. -/
def bOf (numAtoms : ℕ) (vMin vMax r d g : ℚ) (k : ℕ) : ℚ :=
  (clampQ vMin vMax
      (r + (1 - d) * g * (vMin + k * ((vMax - vMin) / ((numAtoms : ℚ) - 1))))
    - vMin) / ((vMax - vMin) / ((numAtoms : ℚ) - 1))

/-- Add `v` at (integer) position `i` of `l`; positions outside `l` are
ignored.  One element of a `torch.index_add_` call. -/
def addAt : List ℚ → ℤ → ℚ → List ℚ
  | [], _, _ => []
  | x :: xs, i, v => if i = 0 then (x + v) :: xs else x :: addAt xs (i - 1) v

/-- Model of `out.index_add_(0, idxs, vals)` on a one-dimensional tensor. -/
def scatterAdd (l : List ℚ) (idxs : List ℤ) (vals : List ℚ) : List ℚ :=
  (idxs.zip vals).foldl (fun acc p => addAt acc p.1 p.2) l

/-- One row of the projected target distribution computed inside
`_dqn_loss`: lower/upper neighbour indices (after both boundary
corrections) of every source atom, the split weights
`target_dist * (u - b)` and `target_dist * (b - L)`, scatter-added into a
zero row of length `num_atoms`. -/
def projectRow (numAtoms : ℕ) (vMin vMax r d g : ℚ) (p : List ℚ) : List ℚ :=
  scatterAdd
    (scatterAdd (List.replicate numAtoms 0)
      ((List.range numAtoms).map
        (fun k => floorC (bOf numAtoms vMin vMax r d g k)))
      ((List.range numAtoms).map
        (fun k => p.getD k 0 *
          ((ceilC numAtoms (bOf numAtoms vMin vMax r d g k) : ℚ)
            - bOf numAtoms vMin vMax r d g k))))
    ((List.range numAtoms).map
      (fun k => ceilC numAtoms (bOf numAtoms vMin vMax r d g k)))
    ((List.range numAtoms).map
      (fun k => p.getD k 0 *
        (bOf numAtoms vMin vMax r d g k
          - (floorC (bOf numAtoms vMin vMax r d g k) : ℚ))))

/-! ## Function approximator interface (§6 of the spec; `EvolvableMLP` etc.
are external collaborators, only their forward contract is modelled) -/

/-- Model of `np.argmax` / `torch.argmax(1)` on a vector: index of the first maximal
entry (`0` on the empty vector, where torch would error). -/
def argmaxIdx (l : List ℚ) : ℕ :=
  (l.enum.foldl (fun best p => if best.2 < p.2 then p else best) (0, l.headD 0)).1

/-- One function approximator, seen through the forward contract the core
relies on: expected action values (`forward(s)`), per-action categorical
distributions (`forward(s, q=False)`) and per-action log-probability
vectors (`forward(s, q=False, log=True)`).  States are abstract ids. -/
structure Approx where
  q : ℕ → List ℚ
  dist : ℕ → List (List ℚ)
  logDist : ℕ → List (List ℚ)

/-- Model of `next_actions = self.actor(next_states).argmax(1)` for one row: the
next action is selected by the online network (double-Q selection). -/
def nextActionSelected (online : Approx) (ns : ℕ) : ℕ :=
  argmaxIdx (online.q ns)

/-- Model of `target_q_dist[range(self.batch_size), next_actions]` for one row: the
target network's distribution at the action the online network selected. -/
def selectedTargetDist (online target : Approx) (ns : ℕ) : List ℚ :=
  (target.dist ns).getD (nextActionSelected online ns) []

/-! ## Per-row and batch loss (`RainbowDQN._dqn_loss`, lines 345-403) -/

/-- The elementwise loss of `_dqn_loss` for one batch row:
cross-entropy `-(proj_dist * log_p).sum(1)` between the projected target
distribution and the online network's log-probabilities at the taken
action. -/
def dqnLossRow (numAtoms : ℕ) (vMin vMax : ℚ) (online target : Approx)
    (s a : ℕ) (r d : ℚ) (ns : ℕ) (g : ℚ) : ℚ :=
  let proj := projectRow numAtoms vMin vMax r d g (selectedTargetDist online target ns)
  let logp := (online.logDist s).getD a []
  Neg.neg (List.zipWith (· * ·) proj logp).sum

/-- One experience batch: aligned `states, actions, rewards, next_states,
dones` columns. -/
structure Batch where
  states : List ℕ
  actions : List ℕ
  rewards : List ℚ
  nextStates : List ℕ
  dones : List ℚ

/-- Model of `_dqn_loss` over a whole batch.  Rows are indexed by
`range(self.batch_size)` — the *configured* batch size, not the number of
rows actually supplied — and every tensor operation of the body
(`target_q_dist[range(self.batch_size), next_actions]`, broadcasting
`rewards`/`dones` against `support`, `L + offset`, `proj_dist * log_p`)
requires each supplied column to have exactly `batch_size` rows; a
mismatch is a runtime indexing/shape error, modelled as `none`. -/
def dqnLoss (numAtoms : ℕ) (vMin vMax : ℚ) (batchSize : ℕ)
    (online target : Approx) (b : Batch) (g : ℚ) : Option (List ℚ) :=
  if b.states.length = batchSize ∧ b.actions.length = batchSize ∧
      b.rewards.length = batchSize ∧ b.nextStates.length = batchSize ∧
      b.dones.length = batchSize then
    some ((List.range batchSize).map (fun i =>
      dqnLossRow numAtoms vMin vMax online target
        (b.states.getD i 0) (b.actions.getD i 0) (b.rewards.getD i 0)
        (b.dones.getD i 0) (b.nextStates.getD i 0) g))
  else none

/-! ## Loss blending (`RainbowDQN.learn`, lines 460-473 and 518-532) -/

/-- The per-transition (elementwise, pre-reduction) loss assembled by
`learn`: with an n-step batch present (`n_step=True`), the one-step loss
(computed with `gamma`) is kept only under `combined_reward`, in which case
`elementwise_loss += n_step_elementwise_loss` adds the n-step loss
(computed with `gamma ** n_step`) elementwise; otherwise the n-step loss
replaces it.  Without an n-step batch only the one-step loss is used.  The
branch structure is identical in the `per` and non-`per` paths of
`learn`. -/
def learnElementwiseLoss (numAtoms : ℕ) (vMin vMax : ℚ) (batchSize : ℕ)
    (online target : Approx) (combinedReward : Bool) (nStepFlag : Bool)
    (b nb : Batch) (gamma : ℚ) (nStep : ℕ) : Option (List ℚ) :=
  if nStepFlag then
    (dqnLoss numAtoms vMin vMax batchSize online target nb (gamma ^ nStep)).bind
      (fun nl =>
        if combinedReward then
          (dqnLoss numAtoms vMin vMax batchSize online target b gamma).map
            (fun ol => List.zipWith (· + ·) ol nl)
        else some nl)
  else dqnLoss numAtoms vMin vMax batchSize online target b gamma

/-! ## Target synchronizer (`RainbowDQN.soft_update`, lines 553-560) -/

/-- Model of `soft_update`: pairs online and target parameters positionally (`zip`)
and overwrites each target parameter with
`tau * eval_param + (1.0 - tau) * target_param`; the online parameters are
not written.  Parameter tensors are flattened to a single list of
scalars. -/
def softUpdate (tau : ℚ) (online target : List ℚ) : List ℚ × List ℚ :=
  (online, List.zipWith (fun e t => tau * e + (1 - tau) * t) online target)

/-! ## Action selector (`RainbowDQN.get_action`, lines 319-343) -/

/-- Model of `np.argmax` over a masked array (`np.ma.array(values, mask=inv_mask)`):
the first index carrying the maximum among entries whose mask bit is
legal. -/
def maskedArgmax (l : List ℚ) (mask : List Bool) : ℕ :=
  (((l.zip mask).enum.foldl
    (fun best p =>
      if p.2.2 then
        match best with
        | none => some (p.1, p.2.1)
        | some b => if b.2 < p.2.1 then some (p.1, p.2.1) else some b
      else best)
    none).map Prod.fst).getD 0

/-- The actor as `get_action` sees it: a training/eval mode flag plus a
forward pass whose output may depend on that mode (noisy layers behave
differently in train and eval mode). -/
structure NoisyActor where
  mode : Bool
  qvals : Bool → ℕ → List ℚ

/-- Model of `get_action`: sets the actor to the requested mode
(`self.actor.train(mode=training)`), runs the forward pass, takes the
(optionally masked) argmax, then unconditionally restores train mode
(`self.actor.train()`) before returning.  Returns the chosen action and the
actor as left behind by the call. -/
def getAction (actor : NoisyActor) (state : ℕ) (actionMask : Option (List Bool))
    (training : Bool) : ℕ × NoisyActor :=
  let actor1 : NoisyActor := { actor with mode := training }
  let actionValues := actor1.qvals actor1.mode state
  let action :=
    match actionMask with
    | none => argmaxIdx actionValues
    | some mask => maskedArgmax actionValues mask
  let actor2 : NoisyActor := { actor1 with mode := true }
  (action, actor2)

/-! ## Replay memory (`agilerl/components/replay_buffer.py`) -/

/-- Model of `collections.deque(maxlen=maxlen).append(x)`: appends on the right and,
when the deque is full, silently discards the leftmost (oldest) element.
The list holds the oldest element first. -/
def dequeAppend (maxlen : ℕ) (l : List α) (x : α) : List α :=
  (l ++ [x]).drop ((l.length + 1) - maxlen)

/-- The replay buffer state: capacity, stored experiences (oldest first)
and the insertion counter. -/
structure ReplayBuffer (α : Type) where
  maxlen : ℕ
  memory : List α
  counter : ℕ

/-- Model of `ReplayBuffer.__init__(action_dim, memory_size, field_names)`. -/
def ReplayBuffer.init (α : Type) (memorySize : ℕ) : ReplayBuffer α :=
  ⟨memorySize, [], 0⟩

/-- Model of `ReplayBuffer._add` followed by the `counter += 1` of
`save2memorySingleEnv`: appends one experience to the bounded deque. -/
def ReplayBuffer.save2memorySingleEnv (buf : ReplayBuffer α) (e : α) :
    ReplayBuffer α :=
  { buf with memory := dequeAppend buf.maxlen buf.memory e,
             counter := buf.counter + 1 }

/-- Model of `ReplayBuffer.save2memoryVectEnvs`: applies `_add` to each experience
in the given order. -/
def ReplayBuffer.save2memoryVectEnvs (buf : ReplayBuffer α) (es : List α) :
    ReplayBuffer α :=
  es.foldl (fun b e => b.save2memorySingleEnv e) buf

/-- Model of `len(self.memory)`. -/
def ReplayBuffer.size (buf : ReplayBuffer α) : ℕ := buf.memory.length

/-- Model of `ReplayBuffer.sample`, built on `random.sample(self.memory, k)`.  The
randomness of `random.sample` is modelled by the `pick` parameter: the list
of distinct memory positions the stdlib sampler chose.  `random.sample`
raises `ValueError` when `k` exceeds the population size (modelled as
`none`); otherwise it returns the `k` chosen elements, which the method
stacks and returns — never a shorter batch. -/
def ReplayBuffer.sample (buf : ReplayBuffer α) (batchSize : ℕ)
    (pick : List ℕ) : Option (List α) :=
  if batchSize ≤ buf.memory.length ∧ pick.length = batchSize ∧
      pick.Nodup ∧ ∀ i ∈ pick, i < buf.memory.length then
    some (pick.filterMap (fun i => buf.memory.get? i))
  else none

/-! ## Helper lemmas: sums under `addAt` / `scatterAdd` -/

theorem addAt_length (l : List ℚ) (i : ℤ) (v : ℚ) :
    (addAt l i v).length = l.length := by
  induction l generalizing i with
  | nil => rfl
  | cons x xs ih =>
    unfold addAt
    split
    · rfl
    · simpa using ih (i - 1)

theorem addAt_sum (l : List ℚ) (i : ℤ) (v : ℚ) :
    (addAt l i v).sum = l.sum + if 0 ≤ i ∧ i < (l.length : ℤ) then v else 0 := by
  induction l generalizing i with
  | nil =>
    have : ¬(0 ≤ i ∧ i < (0 : ℤ)) := by omega
    simp [addAt, this]
  | cons x xs ih =>
    unfold addAt
    split
    · rename_i h
      subst h
      simp only [List.sum_cons, List.length_cons]
      rw [if_pos ⟨le_refl 0, by exact_mod_cast Int.ofNat_succ_pos xs.length⟩]
      ring
    · rename_i h
      simp only [List.sum_cons, List.length_cons, ih (i - 1)]
      have : (0 ≤ i - 1 ∧ i - 1 < (xs.length : ℤ)) ↔
          (0 ≤ i ∧ i < (xs.length : ℤ) + 1) := by omega
      rw [if_congr this rfl rfl]
      push_cast
      ring

theorem scatterAdd_aux_length (ps : List (ℤ × ℚ)) (l : List ℚ) :
    (ps.foldl (fun acc p => addAt acc p.1 p.2) l).length = l.length := by
  induction ps generalizing l with
  | nil => rfl
  | cons p ps ih => simpa [addAt_length] using ih (addAt l p.1 p.2)

theorem scatterAdd_aux_sum (ps : List (ℤ × ℚ)) (l : List ℚ) :
    (ps.foldl (fun acc p => addAt acc p.1 p.2) l).sum =
      l.sum + (ps.map (fun p =>
        if 0 ≤ p.1 ∧ p.1 < (l.length : ℤ) then p.2 else 0)).sum := by
  induction ps generalizing l with
  | nil => simp
  | cons p ps ih =>
    simp only [List.foldl_cons, List.map_cons, List.sum_cons]
    rw [ih (addAt l p.1 p.2), addAt_sum, addAt_length]
    ring

theorem scatterAdd_length (l : List ℚ) (idxs : List ℤ) (vals : List ℚ) :
    (scatterAdd l idxs vals).length = l.length :=
  scatterAdd_aux_length _ _

theorem scatterAdd_sum (l : List ℚ) (idxs : List ℤ) (vals : List ℚ) :
    (scatterAdd l idxs vals).sum =
      l.sum + ((idxs.zip vals).map (fun p =>
        if 0 ≤ p.1 ∧ p.1 < (l.length : ℤ) then p.2 else 0)).sum :=
  scatterAdd_aux_sum _ _

/-! ## Helper lemmas: sums of maps over `List.range` -/

theorem sum_map_range_add (f g : ℕ → ℚ) (n : ℕ) :
    ((List.range n).map (fun k => f k + g k)).sum =
      ((List.range n).map f).sum + ((List.range n).map g).sum := by
  induction n with
  | zero => simp
  | succ m ih => simp [List.range_succ, ih]; ring

theorem sum_map_range_congr (f g : ℕ → ℚ) (n : ℕ)
    (h : ∀ k < n, f k = g k) :
    ((List.range n).map f).sum = ((List.range n).map g).sum := by
  have : (List.range n).map f = (List.range n).map g := by
    apply List.map_congr_left
    intro k hk
    exact h k (List.mem_range.mp hk)
  rw [this]

/-! ## Helper lemmas: the boundary-corrected neighbour indices -/

theorem clampQ_le (lo hi x : ℚ) : clampQ lo hi x ≤ hi := min_le_left _ _

theorem le_clampQ (lo hi x : ℚ) (h : lo ≤ hi) : lo ≤ clampQ lo hi x :=
  le_min h (le_max_left _ _)

/-- After both in-place corrections, upper and lower neighbour always
differ by exactly one — this is the whole content of the
"fix disappearing probability mass" step. -/
theorem ceilC_sub_floorC (numAtoms : ℕ) (b : ℚ) (hN : 2 ≤ numAtoms)
    (hb0 : 0 ≤ b) (hb1 : b ≤ (numAtoms : ℚ) - 1) :
    ceilC numAtoms b - floorC b = 1 := by
  have hLu : ⌊b⌋ ≤ ⌈b⌉ := Int.floor_le_ceil b
  have hul : ⌈b⌉ ≤ ⌊b⌋ + 1 := Int.ceil_le_floor_add_one b
  have hL0 : 0 ≤ ⌊b⌋ := Int.le_floor.mpr (by exact_mod_cast hb0)
  have huN : ⌈b⌉ ≤ (numAtoms : ℤ) - 1 := by
    apply Int.ceil_le.mpr
    push_cast
    exact hb1
  have hN' : (2 : ℤ) ≤ (numAtoms : ℤ) := by exact_mod_cast hN
  unfold ceilC floorC
  split_ifs <;> omega

theorem floorC_nonneg (b : ℚ) (hb0 : 0 ≤ b) : 0 ≤ floorC b := by
  have hL0 : 0 ≤ ⌊b⌋ := Int.le_floor.mpr (by exact_mod_cast hb0)
  unfold floorC
  split_ifs <;> omega

theorem ceilC_le (numAtoms : ℕ) (b : ℚ) (hb1 : b ≤ (numAtoms : ℚ) - 1) :
    ceilC numAtoms b ≤ (numAtoms : ℤ) - 1 := by
  have huN : ⌈b⌉ ≤ (numAtoms : ℤ) - 1 := by
    apply Int.ceil_le.mpr
    push_cast
    exact hb1
  unfold ceilC
  split_ifs <;> omega

theorem bOf_bounds (numAtoms : ℕ) (vMin vMax r d g : ℚ) (k : ℕ)
    (hN : 2 ≤ numAtoms) (hv : vMin < vMax) :
    0 ≤ bOf numAtoms vMin vMax r d g k ∧
      bOf numAtoms vMin vMax r d g k ≤ (numAtoms : ℚ) - 1 := by
  have hN1 : (0 : ℚ) < (numAtoms : ℚ) - 1 := by
    have : (2 : ℚ) ≤ (numAtoms : ℚ) := by exact_mod_cast hN
    linarith
  have hdz : 0 < (vMax - vMin) / ((numAtoms : ℚ) - 1) :=
    div_pos (by linarith) hN1
  unfold bOf
  constructor
  · apply div_nonneg _ (le_of_lt hdz)
    have := le_clampQ vMin vMax
      (r + (1 - d) * g * (vMin + k * ((vMax - vMin) / ((numAtoms : ℚ) - 1))))
      (le_of_lt hv)
    linarith
  · rw [div_le_iff₀ hdz]
    have h1 := clampQ_le vMin vMax
      (r + (1 - d) * g * (vMin + k * ((vMax - vMin) / ((numAtoms : ℚ) - 1))))
    have h2 : ((numAtoms : ℚ) - 1) * ((vMax - vMin) / ((numAtoms : ℚ) - 1))
        = vMax - vMin := by
      field_simp
    linarith

theorem sum_map_range_getD (p : List ℚ) :
    ((List.range p.length).map (fun k => p.getD k 0)).sum = p.sum := by
  induction p with
  | nil => simp
  | cons x xs ih =>
    rw [List.length_cons, List.range_succ_eq_map, List.map_cons, List.map_map]
    simp only [List.sum_cons, List.getD_cons_zero, Function.comp_def,
      List.getD_cons_succ]
    rw [ih]

/-! ## Mass conservation of the categorical projection -/

/-- The projection redistributes exactly the mass of the incoming
distribution: the sum of the projected row equals the sum of the target
row (read through `getD` at positions `0 .. numAtoms - 1`). -/
theorem projectRow_sum (numAtoms : ℕ) (vMin vMax r d g : ℚ) (p : List ℚ)
    (hN : 2 ≤ numAtoms) (hv : vMin < vMax) :
    (projectRow numAtoms vMin vMax r d g p).sum =
      ((List.range numAtoms).map (fun k => p.getD k 0)).sum := by
  have hb : ∀ k, 0 ≤ bOf numAtoms vMin vMax r d g k ∧
      bOf numAtoms vMin vMax r d g k ≤ (numAtoms : ℚ) - 1 :=
    fun k => bOf_bounds numAtoms vMin vMax r d g k hN hv
  have hdiff : ∀ k, ceilC numAtoms (bOf numAtoms vMin vMax r d g k)
      - floorC (bOf numAtoms vMin vMax r d g k) = 1 :=
    fun k => ceilC_sub_floorC numAtoms _ hN (hb k).1 (hb k).2
  have hL0 : ∀ k, 0 ≤ floorC (bOf numAtoms vMin vMax r d g k) :=
    fun k => floorC_nonneg _ (hb k).1
  have hUN : ∀ k, ceilC numAtoms (bOf numAtoms vMin vMax r d g k)
      ≤ (numAtoms : ℤ) - 1 :=
    fun k => ceilC_le numAtoms _ (hb k).2
  unfold projectRow
  rw [scatterAdd_sum, scatterAdd_sum, scatterAdd_length, List.length_replicate,
    List.sum_replicate, smul_zero, List.zip_map', List.zip_map',
    List.map_map, List.map_map]
  simp only [Function.comp_def]
  rw [sum_map_range_congr
      (fun k => if 0 ≤ floorC (bOf numAtoms vMin vMax r d g k) ∧
          floorC (bOf numAtoms vMin vMax r d g k) < (numAtoms : ℤ) then
          p.getD k 0 * ((ceilC numAtoms (bOf numAtoms vMin vMax r d g k) : ℚ)
            - bOf numAtoms vMin vMax r d g k) else 0)
      (fun k => p.getD k 0 * ((ceilC numAtoms (bOf numAtoms vMin vMax r d g k) : ℚ)
        - bOf numAtoms vMin vMax r d g k)) numAtoms
      (fun k _ => if_pos ⟨hL0 k, by have := hdiff k; have := hUN k; omega⟩),
    sum_map_range_congr
      (fun k => if 0 ≤ ceilC numAtoms (bOf numAtoms vMin vMax r d g k) ∧
          ceilC numAtoms (bOf numAtoms vMin vMax r d g k) < (numAtoms : ℤ) then
          p.getD k 0 * (bOf numAtoms vMin vMax r d g k
            - (floorC (bOf numAtoms vMin vMax r d g k) : ℚ)) else 0)
      (fun k => p.getD k 0 * (bOf numAtoms vMin vMax r d g k
        - (floorC (bOf numAtoms vMin vMax r d g k) : ℚ))) numAtoms
      (fun k _ => if_pos ⟨by have := hdiff k; have := hL0 k; omega,
        by have := hUN k; have : (2:ℤ) ≤ (numAtoms : ℤ) := by exact_mod_cast hN
           omega⟩)]
  rw [zero_add, ← sum_map_range_add]
  apply sum_map_range_congr
  intro k _
  have hcast : (ceilC numAtoms (bOf numAtoms vMin vMax r d g k) : ℚ)
      - (floorC (bOf numAtoms vMin vMax r d g k) : ℚ) = 1 := by
    exact_mod_cast congrArg (fun z : ℤ => (z : ℚ)) (hdiff k)
  calc p.getD k 0 * ((ceilC numAtoms (bOf numAtoms vMin vMax r d g k) : ℚ)
          - bOf numAtoms vMin vMax r d g k)
        + p.getD k 0 * (bOf numAtoms vMin vMax r d g k
          - (floorC (bOf numAtoms vMin vMax r d g k) : ℚ))
      = p.getD k 0 * ((ceilC numAtoms (bOf numAtoms vMin vMax r d g k) : ℚ)
          - (floorC (bOf numAtoms vMin vMax r d g k) : ℚ)) := by ring
    _ = p.getD k 0 := by rw [hcast, mul_one]

/-! ## Helper lemmas: the bounded deque -/

theorem dequeAppend_length {α : Type} (cap : ℕ) (m : List α) (x : α) :
    (dequeAppend cap m x).length = min (m.length + 1) cap := by
  unfold dequeAppend
  rw [List.length_drop, List.length_append, List.length_singleton]
  omega

/-- Folding a sequence of appends over the bounded deque keeps exactly the
most recent `cap` elements: the prefix that no longer fits is dropped. -/
theorem foldl_dequeAppend {α : Type} (cap : ℕ) (es : List α) :
    ∀ m : List α, m.length ≤ cap →
      es.foldl (dequeAppend cap) m = (m ++ es).drop ((m.length + es.length) - cap) := by
  induction es with
  | nil =>
    intro m hm
    simp [Nat.sub_eq_zero_of_le hm]
  | cons x es ih =>
    intro m hm
    rw [List.foldl_cons,
      ih (dequeAppend cap m x) (by rw [dequeAppend_length]; omega)]
    unfold dequeAppend
    rcases lt_or_eq_of_le hm with hlt | heq
    · have h0 : (m.length + 1) - cap = 0 := by omega
      rw [h0, List.drop_zero, List.append_assoc, List.singleton_append]
      congr 1
      simp only [List.length_append, List.length_singleton, List.length_cons, List.length_nil]
      omega
    · have h1 : (m.length + 1) - cap = 1 := by omega
      rw [h1, ← List.drop_append_of_le_length
          (by simp : 1 ≤ (m ++ [x]).length),
        List.drop_drop, List.append_assoc, List.singleton_append]
      congr 1
      simp only [List.length_drop, List.length_append, List.length_singleton, List.length_nil,
        List.length_cons]
      omega

theorem save2memoryVectEnvs_memory {α : Type} (buf : ReplayBuffer α)
    (es : List α) :
    (buf.save2memoryVectEnvs es).memory =
      es.foldl (dequeAppend buf.maxlen) buf.memory := by
  induction es generalizing buf with
  | nil => rfl
  | cons x es ih =>
    unfold ReplayBuffer.save2memoryVectEnvs at ih ⊢
    rw [List.foldl_cons, List.foldl_cons]
    exact ih { buf with memory := dequeAppend buf.maxlen buf.memory x,
                        counter := buf.counter + 1 }

/-! ## Helper lemmas: pointwise reading of `zipWith` and `filterMap` -/

theorem zipWith_getD (f : ℚ → ℚ → ℚ) :
    ∀ (l₁ l₂ : List ℚ) (i : ℕ), i < l₁.length → i < l₂.length →
      (List.zipWith f l₁ l₂).getD i 0 = f (l₁.getD i 0) (l₂.getD i 0) := by
  intro l₁
  induction l₁ with
  | nil => intro l₂ i h₁ _; exact absurd h₁ (by simp)
  | cons x xs ih =>
    intro l₂ i h₁ h₂
    cases l₂ with
    | nil => exact absurd h₂ (by simp)
    | cons y ys =>
      cases i with
      | zero => rfl
      | succ j =>
        simp only [List.zipWith_cons_cons, List.getD_cons_succ]
        exact ih ys j (by simpa using h₁) (by simpa using h₂)

theorem zipWith_left (l₁ l₂ : List ℚ) (h : l₁.length = l₂.length) :
    List.zipWith (fun e _ => e) l₁ l₂ = l₁ := by
  induction l₁ generalizing l₂ with
  | nil => rfl
  | cons x xs ih =>
    cases l₂ with
    | nil => exact absurd h (by simp)
    | cons y ys => simpa using ih ys (by simpa using h)

theorem zipWith_right (l₁ l₂ : List ℚ) (h : l₁.length = l₂.length) :
    List.zipWith (fun _ t => t) l₁ l₂ = l₂ := by
  induction l₁ generalizing l₂ with
  | nil => cases l₂ with
    | nil => rfl
    | cons y ys => exact absurd h (by simp)
  | cons x xs ih =>
    cases l₂ with
    | nil => exact absurd h (by simp)
    | cons y ys => simpa using ih ys (by simpa using h)

theorem filterMap_get_spec {α : Type} (l : List α) :
    ∀ pick : List ℕ, (∀ i ∈ pick, i < l.length) →
      (pick.filterMap (fun i => l.get? i)).length = pick.length ∧
        ∀ x ∈ pick.filterMap (fun i => l.get? i), x ∈ l := by
  intro pick
  induction pick with
  | nil => intro _; exact ⟨rfl, by simp⟩
  | cons i pick ih =>
    intro h
    have hi : i < l.length := h i (List.mem_cons_self i pick)
    have hx : l.get? i = some (l.get ⟨i, hi⟩) := List.get?_eq_get hi
    have hrest := ih (fun j hj => h j (List.mem_cons_of_mem i hj))
    simp only [List.filterMap_cons, hx]
    refine ⟨by simpa using hrest.1, ?_⟩
    intro y hy
    rcases List.mem_cons.mp hy with hy | hy
    · subst hy
      exact List.get?_mem hx
    · exact hrest.2 y hy

/-! ## Claim theorems -/

/-- C1. Mass conservation of the categorical projection: for every
batch row — every reward `r`, done flag `d`, effective discount `g` and
every target categorical distribution `p` of length `num_atoms` that is
non-negative and sums to `1` — the distribution produced by the
clamp / bin-index / floor-ceil / boundary-correction / scatter-add pipeline
of `_dqn_loss` sums to the same total as the target distribution, namely
`1`, including when the bin index lands exactly on an integer atom index.
(Exact rational arithmetic; the hypotheses `2 ≤ numAtoms` and
`vMin < vMax` make `delta_z` well defined and positive.) -/
theorem dqn_projection_mass_conservation (numAtoms : ℕ) (vMin vMax r d g : ℚ)
    (p : List ℚ) (hN : 2 ≤ numAtoms) (hv : vMin < vMax)
    (hlen : p.length = numAtoms) (_hd : d = 0 ∨ d = 1)
    (_hnn : ∀ x ∈ p, 0 ≤ x) (hsum : p.sum = 1) :
    (projectRow numAtoms vMin vMax r d g p).sum = p.sum ∧
      (projectRow numAtoms vMin vMax r d g p).sum = 1 := by
  have h := projectRow_sum numAtoms vMin vMax r d g p hN hv
  have h2 : ((List.range numAtoms).map (fun k => p.getD k 0)).sum = p.sum := by
    rw [← hlen]
    exact sum_map_range_getD p
  exact ⟨h.trans h2, (h.trans h2).trans hsum⟩

unseal Rat.add Rat.mul Rat.sub Rat.inv in
/-- C1 witness.  The distribution `[1/2, 1/2, 0]` on a three-atom
support over `[0, 2]`, shifted by reward `1` (every bin index lands on an
integer atom), still sums to `1` after projection. -/
theorem dqn_projection_mass_conservation_witness :
    (2 ≤ 3 ∧ (0 : ℚ) < 2 ∧ [(1 : ℚ)/2, 1/2, 0].length = 3 ∧
      ((0 : ℚ) = 0 ∨ (0 : ℚ) = 1) ∧ (∀ x ∈ [(1 : ℚ)/2, 1/2, 0], 0 ≤ x) ∧
      [(1 : ℚ)/2, 1/2, 0].sum = 1) ∧
    (projectRow 3 0 2 1 0 1 [(1 : ℚ)/2, 1/2, 0]).sum = 1 :=
  ⟨⟨by decide, by decide, by decide, Or.inl rfl, by decide, by decide⟩,
    (dqn_projection_mass_conservation 3 0 2 1 0 1 [(1 : ℚ)/2, 1/2, 0]
      (by decide) (by decide) (by decide) (Or.inl rfl) (by decide)
      (by decide)).2⟩

unseal Rat.add Rat.mul Rat.sub Rat.inv in
/-- C5. Concrete projection scenario: with `v_min = -10`, `v_max = 10`,
`num_atoms = 51` (`delta_z = 0.4 = 2/5`), a transition with `reward = 1`,
`gamma_effective = 1`, `done = 0` and a target distribution one-hot at the
atom valued `0.0` (index 25, whose clamped target value `t_z` is `1.0`) has
bin index `b = 27.5`, corrected neighbours `L = 27` and `U = 28`, and its
projected distribution is `1/2` at indices 27 and 28 and `0` elsewhere. -/
theorem dqn_projection_concrete_scenario :
    (linspaceQ (-10) 10 51).getD 25 0 = 0 ∧
    clampQ (-10) 10
        (1 + (1 - 0) * 1 * ((-10) + 25 * ((10 - (-10)) / ((51 : ℚ) - 1)))) = 1 ∧
    bOf 51 (-10) 10 1 0 1 25 = 55/2 ∧
    floorC (bOf 51 (-10) 10 1 0 1 25) = 27 ∧
    ceilC 51 (bOf 51 (-10) 10 1 0 1 25) = 28 ∧
    projectRow 51 (-10) 10 1 0 1
        ((List.range 51).map (fun k => if k = 25 then (1 : ℚ) else 0)) =
      (List.range 51).map (fun j => if j = 27 ∨ j = 28 then (1 : ℚ)/2 else 0) := by
  set_option maxRecDepth 100000 in decide

/-- Reading one atom of `torch.linspace` at index `k < n`. -/
theorem linspaceQ_getD (vMin vMax : ℚ) (n k : ℕ) (hk : k < n) :
    (linspaceQ vMin vMax n).getD k 0 =
      vMin + k * ((vMax - vMin) / ((n : ℚ) - 1)) := by
  unfold linspaceQ
  rw [List.getD_eq_getElem?_getD, List.getElem?_map, List.getElem?_range hk]
  rfl

/-- C2 counterexample.  `num_atoms = 1` and `v_max = v_min = 0` satisfy
the constructor's own asserts (`num_atoms >= 1`, `v_max >= v_min`), yet
construction does not succeed: `delta_z = (v_max - v_min) / (num_atoms - 1)`
divides by zero (Python `ZeroDivisionError`), modelled as `none`. -/
theorem support_vector_construction_cex :
    1 ≤ (1 : ℤ) ∧ (0 : ℚ) ≤ 0 ∧ mkSupportVector 0 0 1 = none :=
  ⟨le_refl 1, le_refl 0, rfl⟩

/-- C2 (amended).  For every `v_min ≤ v_max` and `num_atoms ≥ 2`,
construction succeeds and produces exactly `num_atoms` atom values evenly
spaced by `delta_z = (v_max - v_min) / (num_atoms - 1)` from `v_min` to
`v_max` inclusive, and these are strictly increasing whenever
`v_min < v_max`; construction fails if `num_atoms < 1`, if
`v_max < v_min`, or — against the original claim — if `num_atoms = 1`
(division by zero in `delta_z`).  With `v_max = v_min` the atoms are
constant, so strict increase also needs `v_min < v_max`. -/
theorem support_vector_construction (vMin vMax : ℚ) (numAtoms : ℤ) :
    (2 ≤ numAtoms → vMin ≤ vMax →
      ∃ s, mkSupportVector vMin vMax numAtoms = some s ∧
        (s.atoms.length : ℤ) = numAtoms ∧
        s.delta_z = (vMax - vMin) / ((numAtoms : ℚ) - 1) ∧
        (∀ k, k + 1 < s.atoms.length →
          s.atoms.getD (k + 1) 0 - s.atoms.getD k 0 = s.delta_z) ∧
        s.atoms.getD 0 0 = vMin ∧
        s.atoms.getD (s.atoms.length - 1) 0 = vMax ∧
        (vMin < vMax → s.atoms.Pairwise (· < ·))) ∧
    ((numAtoms ≤ 1 ∨ vMax < vMin) → mkSupportVector vMin vMax numAtoms = none) := by
  constructor
  · intro hN hv
    have h1 : ¬numAtoms < 1 := by omega
    have h2 : ¬vMax < vMin := not_lt.mpr hv
    have h3 : ¬(numAtoms - 1 = 0) := by omega
    have hnn : (0 : ℤ) ≤ numAtoms := by omega
    have hcast : ((numAtoms.toNat : ℚ)) = ((numAtoms : ℤ) : ℚ) := by
      exact_mod_cast congrArg (fun z : ℤ => (z : ℚ)) (Int.toNat_of_nonneg hnn)
    have hlen : (linspaceQ vMin vMax numAtoms.toNat).length = numAtoms.toNat := by
      unfold linspaceQ
      rw [List.length_map, List.length_range]
    have hN2 : 2 ≤ numAtoms.toNat := by omega
    have hQ1 : (1 : ℚ) ≤ (numAtoms.toNat : ℚ) - 1 := by
      have : (2 : ℚ) ≤ (numAtoms.toNat : ℚ) := by exact_mod_cast hN2
      linarith
    unfold mkSupportVector
    rw [if_neg h1, if_neg h2, if_neg h3]
    refine ⟨_, rfl, ?_, ?_, ?_, ?_, ?_, ?_⟩
    · simp only
      omega
    · rfl
    · intro k hk
      simp only at hk ⊢
      rw [linspaceQ_getD vMin vMax _ (k + 1) (by omega),
        linspaceQ_getD vMin vMax _ k (by omega), hcast]
      push_cast
      ring
    · simp only
      rw [linspaceQ_getD vMin vMax _ 0 (by omega)]
      simp
    · simp only
      rw [hlen, linspaceQ_getD vMin vMax _ (numAtoms.toNat - 1) (by omega)]
      have hne : ((numAtoms.toNat : ℚ) - 1) ≠ 0 := by linarith
      have hsub : ((numAtoms.toNat - 1 : ℕ) : ℚ) = (numAtoms.toNat : ℚ) - 1 := by
        have : 1 ≤ numAtoms.toNat := by omega
        push_cast [this]
        ring
      rw [hsub, hcast] at *
      field_simp
    · intro hvlt
      simp only
      unfold linspaceQ
      have hdz : 0 < (vMax - vMin) / ((numAtoms.toNat : ℚ) - 1) := by
        apply div_pos (by linarith)
        linarith
      refine List.Pairwise.map _ ?_ (List.pairwise_lt_range _)
      intro a b hab
      have : (a : ℚ) < (b : ℚ) := by exact_mod_cast hab
      have := mul_lt_mul_of_pos_right this hdz
      linarith
  · intro h
    unfold mkSupportVector
    split_ifs with h1 h2 h3
    · rfl
    · rfl
    · rfl
    · exfalso
      rcases h with h | h
      · omega
      · exact h2 h

unseal Rat.add Rat.mul Rat.sub Rat.inv in
/-- C2 witness.  `(v_min, v_max, num_atoms) = (0, 1, 3)` satisfies the
amended preconditions and construction succeeds with all the listed
properties. -/
theorem support_vector_construction_witness :
    (2 ≤ (3 : ℤ) ∧ (0 : ℚ) ≤ 1) ∧
    (∃ s, mkSupportVector 0 1 3 = some s ∧
      (s.atoms.length : ℤ) = 3 ∧
      s.delta_z = (1 - 0) / (((3 : ℤ) : ℚ) - 1) ∧
      (∀ k, k + 1 < s.atoms.length →
        s.atoms.getD (k + 1) 0 - s.atoms.getD k 0 = s.delta_z) ∧
      s.atoms.getD 0 0 = 0 ∧
      s.atoms.getD (s.atoms.length - 1) 0 = 1 ∧
      ((0 : ℚ) < 1 → s.atoms.Pairwise (· < ·))) :=
  ⟨⟨by decide, by decide⟩,
    (support_vector_construction 0 1 3).1 (by decide) (by decide)⟩

/-- C3. Replay-memory sampling: whenever `batch_size` does not exceed
the current size and the stdlib sampler picks `batch_size` distinct valid
positions (the contract of `random.sample`), `sample` returns exactly
`batch_size` transitions, all of them stored ones; whenever `batch_size`
exceeds the current size it fails (`random.sample` raises), never
returning a short batch. -/
theorem replay_sample_contract {α : Type} (buf : ReplayBuffer α)
    (batchSize : ℕ) (pick : List ℕ) :
    (batchSize ≤ buf.size → pick.length = batchSize → pick.Nodup →
      (∀ i ∈ pick, i < buf.size) →
      ∃ out, buf.sample batchSize pick = some out ∧ out.length = batchSize ∧
        ∀ x ∈ out, x ∈ buf.memory) ∧
    (buf.size < batchSize → buf.sample batchSize pick = none) := by
  constructor
  · intro hk hlen hnodup hbound
    unfold ReplayBuffer.sample
    rw [if_pos ⟨hk, hlen, hnodup, hbound⟩]
    have hspec := filterMap_get_spec buf.memory pick hbound
    exact ⟨_, rfl, hspec.1.trans hlen, hspec.2⟩
  · intro hk
    unfold ReplayBuffer.size at hk
    unfold ReplayBuffer.sample
    rw [if_neg]
    intro hcon
    exact absurd hcon.1 (by omega)

/-- C3 witness.  Sampling 2 of 3 stored transitions with the sampler
picking positions `[2, 0]` succeeds with 2 stored transitions. -/
theorem replay_sample_contract_witness :
    (2 ≤ (ReplayBuffer.mk 3 [10, 20, 30] 0 : ReplayBuffer ℕ).size ∧
      ([2, 0] : List ℕ).length = 2 ∧ ([2, 0] : List ℕ).Nodup ∧
      (∀ i ∈ ([2, 0] : List ℕ),
        i < (ReplayBuffer.mk 3 [10, 20, 30] 0 : ReplayBuffer ℕ).size)) ∧
    (∃ out, (ReplayBuffer.mk 3 [10, 20, 30] 0 : ReplayBuffer ℕ).sample 2 [2, 0]
        = some out ∧ out.length = 2 ∧
      ∀ x ∈ out, x ∈ (ReplayBuffer.mk 3 [10, 20, 30] 0 : ReplayBuffer ℕ).memory) :=
  ⟨⟨by decide, by decide, by decide, by decide⟩,
    (replay_sample_contract (ReplayBuffer.mk 3 [10, 20, 30] 0) 2 [2, 0]).1
      (by decide) (by decide) (by decide) (by decide)⟩

/-- C4. Replay-memory FIFO law: the buffer size never exceeds the
configured capacity under any insertion sequence; inserting `cap + 1`
transitions from empty retains exactly the most recent `cap` (the oldest
is evicted); concretely, with capacity 3, inserting `A, B, C, D` in order
leaves `[B, C, D]` in insertion order. -/
theorem replay_memory_fifo (α : Type) :
    (∀ buf : ReplayBuffer α, buf.size ≤ buf.maxlen →
      ∀ es : List α, (buf.save2memoryVectEnvs es).size ≤ buf.maxlen) ∧
    (∀ (cap : ℕ) (l : List α), l.length = cap + 1 →
      ((ReplayBuffer.init α cap).save2memoryVectEnvs l).memory = l.drop 1) ∧
    (∀ a b c d : α,
      ((ReplayBuffer.init α 3).save2memoryVectEnvs [a, b, c, d]).memory
        = [b, c, d]) := by
  refine ⟨?_, ?_, ?_⟩
  · intro buf h es
    unfold ReplayBuffer.size at *
    rw [save2memoryVectEnvs_memory, foldl_dequeAppend buf.maxlen es buf.memory h,
      List.length_drop, List.length_append]
    omega
  · intro cap l h
    rw [save2memoryVectEnvs_memory]
    show List.foldl (dequeAppend cap) [] l = List.drop 1 l
    rw [foldl_dequeAppend cap l [] (by simp)]
    rw [List.nil_append]
    congr 1
    simp [ReplayBuffer.init, h]
  · intro a b c d
    rfl

/-- C4 witness.  Capacity 3 with the four insertions `1, 2, 3, 4`
retains `[2, 3, 4]`. -/
theorem replay_memory_fifo_witness :
    ([1, 2, 3, 4] : List ℕ).length = 3 + 1 ∧
    ((ReplayBuffer.init ℕ 3).save2memoryVectEnvs [1, 2, 3, 4]).memory
      = ([1, 2, 3, 4] : List ℕ).drop 1 :=
  ⟨rfl, (replay_memory_fifo ℕ).2.1 3 [1, 2, 3, 4] rfl⟩

/-- C6. Double-Q selection: the next action indexing the target
network's categorical distribution is the argmax of the online network's
expected values at the next state; in particular, whenever the target
network's own top action differs from the online network's, the
distribution flowing into the projection and loss is still the one at the
online network's choice. -/
theorem double_q_selection (numAtoms : ℕ) (vMin vMax : ℚ)
    (online target : Approx) (s a ns : ℕ) (r d g : ℚ)
    (_h : argmaxIdx (target.q ns) ≠ argmaxIdx (online.q ns)) :
    nextActionSelected online ns = argmaxIdx (online.q ns) ∧
    selectedTargetDist online target ns
        = (target.dist ns).getD (argmaxIdx (online.q ns)) [] ∧
    dqnLossRow numAtoms vMin vMax online target s a r d ns g
        = Neg.neg (List.zipWith (· * ·)
            (projectRow numAtoms vMin vMax r d g
              ((target.dist ns).getD (argmaxIdx (online.q ns)) []))
            ((online.logDist s).getD a [])).sum :=
  ⟨rfl, rfl, rfl⟩

unseal Rat.add Rat.mul Rat.sub Rat.inv in
/-- C6 witness.  An online network preferring action 1 and a target
network preferring action 0: the target distribution extracted is the one
at action 1 (the online choice). -/
theorem double_q_selection_witness :
    (argmaxIdx ((Approx.mk (fun _ => [1, 0]) (fun _ => [[1, 0], [0, 1]])
        (fun _ => [[0, 0], [0, 0]])).q 0)
      ≠ argmaxIdx ((Approx.mk (fun _ => [0, 1]) (fun _ => [[1, 0], [0, 1]])
        (fun _ => [[0, 0], [0, 0]])).q 0)) ∧
    selectedTargetDist
        (Approx.mk (fun _ => [0, 1]) (fun _ => [[1, 0], [0, 1]])
          (fun _ => [[0, 0], [0, 0]]))
        (Approx.mk (fun _ => [1, 0]) (fun _ => [[1, 0], [0, 1]])
          (fun _ => [[0, 0], [0, 0]])) 0
      = ((Approx.mk (fun _ => [1, 0]) (fun _ => [[1, 0], [0, 1]])
          (fun _ => [[0, 0], [0, 0]])).dist 0).getD
          (argmaxIdx ((Approx.mk (fun _ => [0, 1]) (fun _ => [[1, 0], [0, 1]])
            (fun _ => [[0, 0], [0, 0]])).q 0)) [] :=
  ⟨by decide,
    (double_q_selection 2 0 1
      (Approx.mk (fun _ => [0, 1]) (fun _ => [[1, 0], [0, 1]])
        (fun _ => [[0, 0], [0, 0]]))
      (Approx.mk (fun _ => [1, 0]) (fun _ => [[1, 0], [0, 1]])
        (fun _ => [[0, 0], [0, 0]]))
      0 0 0 0 0 1 (by decide)).2.1⟩

/-- C7. Soft update law: every target parameter becomes
`tau * online + (1 - tau) * target` at its position, the online parameters
are left unchanged, `tau = 1` makes the target an exact copy of the online
parameters, and `tau = 0` leaves the target unchanged. -/
theorem soft_update_law (tau : ℚ) (online target : List ℚ)
    (h : online.length = target.length) :
    (∀ i < online.length,
      (softUpdate tau online target).2.getD i 0
        = tau * online.getD i 0 + (1 - tau) * target.getD i 0) ∧
    (softUpdate tau online target).1 = online ∧
    (tau = 1 → (softUpdate tau online target).2 = online) ∧
    (tau = 0 → (softUpdate tau online target).2 = target) := by
  refine ⟨?_, rfl, ?_, ?_⟩
  · intro i hi
    unfold softUpdate
    exact zipWith_getD _ online target i hi (h ▸ hi)
  · intro ht
    subst ht
    unfold softUpdate
    simp only [one_mul, sub_self, zero_mul, add_zero]
    exact zipWith_left online target h
  · intro ht
    subst ht
    unfold softUpdate
    simp only [zero_mul, sub_zero, one_mul, zero_add]
    exact zipWith_right online target h

/-- C7 witness.  With `tau = 1` the single target parameter `4` is
overwritten by the online parameter `2`. -/
theorem soft_update_law_witness :
    ([(2 : ℚ)].length = [(4 : ℚ)].length) ∧
    (softUpdate 1 [(2 : ℚ)] [(4 : ℚ)]).2 = [(2 : ℚ)] :=
  ⟨rfl, (soft_update_law 1 [(2 : ℚ)] [(4 : ℚ)] rfl).2.2.1 rfl⟩

/-- C8. Loss blending in `learn` when an n-step batch is supplied:
with `combined_reward` the per-transition loss is the elementwise sum of
the independently computed one-step loss (discount `gamma`) and n-step
loss (discount `gamma ^ n_step`); without it, the per-transition loss is
the n-step loss alone. -/
theorem learn_loss_blending (numAtoms : ℕ) (vMin vMax : ℚ) (batchSize : ℕ)
    (online target : Approx) (b nb : Batch) (gamma : ℚ) (nStep : ℕ)
    (ol nl : List ℚ)
    (h1 : dqnLoss numAtoms vMin vMax batchSize online target b gamma = some ol)
    (h2 : dqnLoss numAtoms vMin vMax batchSize online target nb (gamma ^ nStep)
      = some nl) :
    learnElementwiseLoss numAtoms vMin vMax batchSize online target
        true true b nb gamma nStep = some (List.zipWith (· + ·) ol nl) ∧
    learnElementwiseLoss numAtoms vMin vMax batchSize online target
        false true b nb gamma nStep = some nl := by
  constructor
  · simp [learnElementwiseLoss, h1, h2]
  · simp [learnElementwiseLoss, h2]

unseal Rat.add Rat.mul Rat.sub Rat.inv in
/-- C8 witness.  A one-row batch with zero log-probabilities: both
one-step and n-step losses are `[0]`; blended they are `[0 + 0]`, and
without blending the n-step loss `[0]` stands alone. -/
theorem learn_loss_blending_witness :
    (dqnLoss 2 0 1 1
        (Approx.mk (fun _ => [0, 0]) (fun _ => [[1, 0], [0, 1]])
          (fun _ => [[0, 0], [0, 0]]))
        (Approx.mk (fun _ => [0, 0]) (fun _ => [[1, 0], [0, 1]])
          (fun _ => [[0, 0], [0, 0]]))
        (Batch.mk [0] [0] [0] [0] [0]) 1 = some [0] ∧
      dqnLoss 2 0 1 1
        (Approx.mk (fun _ => [0, 0]) (fun _ => [[1, 0], [0, 1]])
          (fun _ => [[0, 0], [0, 0]]))
        (Approx.mk (fun _ => [0, 0]) (fun _ => [[1, 0], [0, 1]])
          (fun _ => [[0, 0], [0, 0]]))
        (Batch.mk [0] [0] [0] [0] [0]) ((1 : ℚ) ^ 2) = some [0]) ∧
    learnElementwiseLoss 2 0 1 1
        (Approx.mk (fun _ => [0, 0]) (fun _ => [[1, 0], [0, 1]])
          (fun _ => [[0, 0], [0, 0]]))
        (Approx.mk (fun _ => [0, 0]) (fun _ => [[1, 0], [0, 1]])
          (fun _ => [[0, 0], [0, 0]]))
        true true (Batch.mk [0] [0] [0] [0] [0]) (Batch.mk [0] [0] [0] [0] [0])
        1 2 = some (List.zipWith (· + ·) [(0 : ℚ)] [(0 : ℚ)]) :=
  ⟨⟨by decide, by decide⟩,
    (learn_loss_blending 2 0 1 1
      (Approx.mk (fun _ => [0, 0]) (fun _ => [[1, 0], [0, 1]])
        (fun _ => [[0, 0], [0, 0]]))
      (Approx.mk (fun _ => [0, 0]) (fun _ => [[1, 0], [0, 1]])
        (fun _ => [[0, 0], [0, 0]]))
      (Batch.mk [0] [0] [0] [0] [0]) (Batch.mk [0] [0] [0] [0] [0]) 1 2
      [0] [0] (by decide) (by decide)).1⟩

/-- C9. Implicit batch-size precondition of `_dqn_loss`: rows are
selected through the configured `self.batch_size`, so the loss is defined
exactly when every supplied column has `batch_size` rows (otherwise the
row indexing / tensor shapes fail), and on success the output is the
per-row loss at indices `0 .. batch_size - 1`. -/
theorem dqn_loss_batch_size_precondition (numAtoms : ℕ) (vMin vMax : ℚ)
    (batchSize : ℕ) (online target : Approx) (b : Batch) (g : ℚ) :
    ((dqnLoss numAtoms vMin vMax batchSize online target b g).isSome ↔
      (b.states.length = batchSize ∧ b.actions.length = batchSize ∧
        b.rewards.length = batchSize ∧ b.nextStates.length = batchSize ∧
        b.dones.length = batchSize)) ∧
    ∀ out, dqnLoss numAtoms vMin vMax batchSize online target b g = some out →
      out = (List.range batchSize).map (fun i =>
        dqnLossRow numAtoms vMin vMax online target (b.states.getD i 0)
          (b.actions.getD i 0) (b.rewards.getD i 0) (b.dones.getD i 0)
          (b.nextStates.getD i 0) g) := by
  unfold dqnLoss
  split_ifs with h
  · exact ⟨by simp [h], fun out hout => (Option.some.inj hout).symm⟩
  · exact ⟨by simp [h], fun out hout => absurd hout (by simp)⟩

unseal Rat.add Rat.mul Rat.sub Rat.inv in
/-- C9 witness.  A batch with exactly `batch_size = 1` rows succeeds
and produces the single row loss. -/
theorem dqn_loss_batch_size_precondition_witness :
    (dqnLoss 2 0 1 1
        (Approx.mk (fun _ => [0, 0]) (fun _ => [[1, 0], [0, 1]])
          (fun _ => [[0, 0], [0, 0]]))
        (Approx.mk (fun _ => [0, 0]) (fun _ => [[1, 0], [0, 1]])
          (fun _ => [[0, 0], [0, 0]]))
        (Batch.mk [0] [0] [0] [0] [0]) 1 = some [0]) ∧
    ([(0 : ℚ)] = (List.range 1).map (fun i =>
      dqnLossRow 2 0 1
        (Approx.mk (fun _ => [0, 0]) (fun _ => [[1, 0], [0, 1]])
          (fun _ => [[0, 0], [0, 0]]))
        (Approx.mk (fun _ => [0, 0]) (fun _ => [[1, 0], [0, 1]])
          (fun _ => [[0, 0], [0, 0]]))
        ((Batch.mk [0] [0] [0] [0] [0]).states.getD i 0)
        ((Batch.mk [0] [0] [0] [0] [0]).actions.getD i 0)
        ((Batch.mk [0] [0] [0] [0] [0]).rewards.getD i 0)
        ((Batch.mk [0] [0] [0] [0] [0]).dones.getD i 0)
        ((Batch.mk [0] [0] [0] [0] [0]).nextStates.getD i 0) 1)) :=
  ⟨by decide,
    (dqn_loss_batch_size_precondition 2 0 1 1
      (Approx.mk (fun _ => [0, 0]) (fun _ => [[1, 0], [0, 1]])
        (fun _ => [[0, 0], [0, 0]]))
      (Approx.mk (fun _ => [0, 0]) (fun _ => [[1, 0], [0, 1]])
        (fun _ => [[0, 0], [0, 0]]))
      (Batch.mk [0] [0] [0] [0] [0]) 1).2 [0] (by decide)⟩

/-- C10. Frame effect of `get_action`: whatever mode the actor was in
before the call and whatever `training` flag is passed (and with or
without an action mask), the actor is left in train mode afterwards —
`self.actor.train()` runs unconditionally before returning — while the
forward pass inside the call uses the requested mode; nothing else about
the actor changes. -/
theorem get_action_mode_frame_effect (actor : NoisyActor) (state : ℕ)
    (mask : Option (List Bool)) (training : Bool) :
    (getAction actor state mask training).2.mode = true ∧
    (getAction actor state mask training).2.qvals = actor.qvals ∧
    (getAction actor state mask training).1 =
      (match mask with
        | none => argmaxIdx (actor.qvals training state)
        | some m => maskedArgmax (actor.qvals training state) m) := by
  cases mask <;> exact ⟨rfl, rfl, rfl⟩

end AgileRL
